import Mathlib

/-!
Verification of the DeepSeek HF-to-Megatron checkpoint state-mapping code
(`nemo/collections/llm/gpt/model/deepseek.py`) against its specification.

The state dict is modelled as an association list with unique keys, mirroring a
Python `dict`: `popKey` is `dict.pop` (first match removed, `none` models a
raised `KeyError`), `setKey` is `dict[k] = v` (replace in place if present,
append otherwise), `lookupKey` is `dict.get`.
-/

/-- A flat parameter container: ordered mapping from dotted names to tensors. -/
abbrev SDict (α : Type) := List (String × α)

/-- Python `dict[k]` lookup (keys are unique, so first match suffices). -/
def lookupKey {α : Type} : SDict α → String → Option α
  | [], _ => none
  | (k2, v) :: rest, k => if k2 = k then some v else lookupKey rest k

/-- Python `dict.pop(k)`: remove the entry and return its value together with
the remaining dict; `none` models the raised `KeyError` when `k` is absent. -/
def popKey {α : Type} : SDict α → String → Option (α × SDict α)
  | [], _ => none
  | (k2, v) :: rest, k =>
    if k2 = k then some (v, rest)
    else
      match popKey rest k with
      | none => none
      | some (w, r) => some (w, (k2, v) :: r)

/-- Python `dict[k] = v`: replace in place when the key exists, else append. -/
def setKey {α : Type} : SDict α → String → α → SDict α
  | [], k, v => [(k, v)]
  | (k2, w) :: rest, k, v =>
    if k2 = k then (k2, v) :: rest else (k2, w) :: setKey rest k v

/-- The keys of a container, in order. -/
def dictKeys {α : Type} (d : SDict α) : List String := d.map Prod.fst

/-- The tensor values of a container, in order. -/
def dictVals {α : Type} (d : SDict α) : List α := d.map Prod.snd

theorem dictKeys_nil {α : Type} : dictKeys ([] : SDict α) = [] := rfl

theorem dictKeys_cons {α : Type} (p : String × α) (d : SDict α) :
    dictKeys (p :: d) = p.1 :: dictKeys d := rfl

theorem dictVals_nil {α : Type} : dictVals ([] : SDict α) = [] := rfl

theorem dictVals_cons {α : Type} (p : String × α) (d : SDict α) :
    dictVals (p :: d) = p.2 :: dictVals d := rfl

theorem lookupKey_isSome_iff_mem {α : Type} {d : SDict α} {k : String} :
    (lookupKey d k).isSome = true ↔ k ∈ dictKeys d := by
  induction d with
  | nil => simp [lookupKey, dictKeys_nil]
  | cons p rest ih =>
    obtain ⟨k2, v⟩ := p
    by_cases h : k2 = k
    · subst h
      simp [lookupKey, dictKeys_cons]
    · have h2 : ¬k = k2 := fun hc => h hc.symm
      simp [lookupKey, dictKeys_cons, h, h2, ih]

theorem lookupKey_eq_none_of_not_mem {α : Type} {d : SDict α} {k : String}
    (h : k ∉ dictKeys d) : lookupKey d k = none := by
  cases hl : lookupKey d k with
  | none => rfl
  | some v => exact absurd (lookupKey_isSome_iff_mem.mp (by simp [hl])) h

theorem popKey_isSome {α : Type} {d : SDict α} {k : String}
    (h : (lookupKey d k).isSome = true) : ∃ w d2, popKey d k = some (w, d2) := by
  induction d with
  | nil => simp [lookupKey] at h
  | cons p rest ih =>
    obtain ⟨k2, v⟩ := p
    by_cases hk : k2 = k
    · exact ⟨v, rest, by simp [popKey, hk]⟩
    · simp [lookupKey, hk] at h
      obtain ⟨w, d2, hw⟩ := ih h
      exact ⟨w, (k2, v) :: d2, by simp [popKey, hk, hw]⟩

theorem popKey_eq_none {α : Type} {d : SDict α} {k : String}
    (h : lookupKey d k = none) : popKey d k = none := by
  induction d with
  | nil => simp [popKey]
  | cons p rest ih =>
    obtain ⟨k2, v⟩ := p
    by_cases hk : k2 = k
    · simp [lookupKey, hk] at h
    · simp [lookupKey, hk] at h
      simp [popKey, hk, ih h]

theorem popKey_lookup {α : Type} {d : SDict α} {k : String} {w : α} {d2 : SDict α}
    (h : popKey d k = some (w, d2)) : lookupKey d k = some w := by
  induction d generalizing d2 with
  | nil => simp [popKey] at h
  | cons p rest ih =>
    obtain ⟨k2, v⟩ := p
    by_cases hk : k2 = k
    · simp [popKey, hk] at h
      simp [lookupKey, hk, h.1]
    · simp only [popKey, if_neg hk] at h
      cases hrec : popKey rest k with
      | none => rw [hrec] at h; exact absurd h (by simp)
      | some pr =>
        obtain ⟨w2, r⟩ := pr
        rw [hrec] at h
        simp only [Option.some.injEq, Prod.mk.injEq] at h
        obtain ⟨hw, hd2⟩ := h
        subst hw
        simp [lookupKey, hk, ih hrec]

theorem popKey_lookup_ne {α : Type} {d : SDict α} {k k2 : String} {w : α} {d2 : SDict α}
    (h : popKey d k = some (w, d2)) (hne : k2 ≠ k) :
    lookupKey d2 k2 = lookupKey d k2 := by
  induction d generalizing d2 with
  | nil => simp [popKey] at h
  | cons p rest ih =>
    obtain ⟨k3, v⟩ := p
    by_cases hk : k3 = k
    · simp [popKey, hk] at h
      obtain ⟨hw, hd2⟩ := h
      subst hd2
      simp [lookupKey, hk, Ne.symm hne]
    · simp only [popKey, if_neg hk] at h
      cases hrec : popKey rest k with
      | none => rw [hrec] at h; exact absurd h (by simp)
      | some pr =>
        obtain ⟨w2, r⟩ := pr
        rw [hrec] at h
        simp only [Option.some.injEq, Prod.mk.injEq] at h
        obtain ⟨hw, hd2⟩ := h
        subst hw
        subst hd2
        by_cases h32 : k3 = k2 <;> simp [lookupKey, h32, ih hrec]

theorem popKey_keys_sublist {α : Type} {d : SDict α} {k : String} {w : α} {d2 : SDict α}
    (h : popKey d k = some (w, d2)) : (dictKeys d2).Sublist (dictKeys d) := by
  induction d generalizing d2 with
  | nil => simp [popKey] at h
  | cons p rest ih =>
    obtain ⟨k3, v⟩ := p
    by_cases hk : k3 = k
    · simp [popKey, hk] at h
      obtain ⟨hw, hd2⟩ := h
      subst hd2
      exact List.sublist_cons_self k3 (dictKeys rest)
    · simp only [popKey, if_neg hk] at h
      cases hrec : popKey rest k with
      | none => rw [hrec] at h; exact absurd h (by simp)
      | some pr =>
        obtain ⟨w2, r⟩ := pr
        rw [hrec] at h
        simp only [Option.some.injEq, Prod.mk.injEq] at h
        obtain ⟨hw, hd2⟩ := h
        subst hw
        subst hd2
        exact (ih hrec).cons₂ k3

theorem popKey_lookup_self {α : Type} {d : SDict α} {k : String} {w : α} {d2 : SDict α}
    (hnd : (dictKeys d).Nodup) (h : popKey d k = some (w, d2)) :
    lookupKey d2 k = none := by
  induction d generalizing d2 with
  | nil => simp [popKey] at h
  | cons p rest ih =>
    obtain ⟨k3, v⟩ := p
    rw [dictKeys_cons, List.nodup_cons] at hnd
    by_cases hk : k3 = k
    · simp [popKey, hk] at h
      obtain ⟨hw, hd2⟩ := h
      subst hd2
      subst hk
      exact lookupKey_eq_none_of_not_mem hnd.1
    · simp only [popKey, if_neg hk] at h
      cases hrec : popKey rest k with
      | none => rw [hrec] at h; exact absurd h (by simp)
      | some pr =>
        obtain ⟨w2, r⟩ := pr
        rw [hrec] at h
        simp only [Option.some.injEq, Prod.mk.injEq] at h
        obtain ⟨hw, hd2⟩ := h
        subst hw
        subst hd2
        simp [lookupKey, hk, ih hnd.2 hrec]

theorem popKey_vals_perm {α : Type} {d : SDict α} {k : String} {w : α} {d2 : SDict α}
    (h : popKey d k = some (w, d2)) : (dictVals d).Perm (w :: dictVals d2) := by
  induction d generalizing d2 with
  | nil => simp [popKey] at h
  | cons p rest ih =>
    obtain ⟨k3, v⟩ := p
    by_cases hk : k3 = k
    · simp only [popKey, if_pos hk, Option.some.injEq, Prod.mk.injEq] at h
      obtain ⟨hw, hd2⟩ := h
      subst hw
      subst hd2
      simp [dictVals_cons]
    · simp only [popKey, if_neg hk] at h
      cases hrec : popKey rest k with
      | none => rw [hrec] at h; exact absurd h (by simp)
      | some pr =>
        obtain ⟨w2, r⟩ := pr
        rw [hrec] at h
        simp only [Option.some.injEq, Prod.mk.injEq] at h
        obtain ⟨hw, hd2⟩ := h
        subst hw
        subst hd2
        rw [dictVals_cons, dictVals_cons]
        exact ((ih hrec).cons v).trans (List.Perm.swap _ v _)

theorem setKey_lookup_self {α : Type} (d : SDict α) (k : String) (v : α) :
    lookupKey (setKey d k v) k = some v := by
  induction d with
  | nil => simp [setKey, lookupKey]
  | cons p rest ih =>
    obtain ⟨k2, w⟩ := p
    by_cases hk : k2 = k <;> simp [setKey, lookupKey, hk, ih]

theorem setKey_lookup_ne {α : Type} {d : SDict α} {k k2 : String} (v : α)
    (hne : k2 ≠ k) : lookupKey (setKey d k v) k2 = lookupKey d k2 := by
  induction d with
  | nil => simp [setKey, lookupKey, Ne.symm hne]
  | cons p rest ih =>
    obtain ⟨k3, w⟩ := p
    by_cases hk : k3 = k
    · subst hk
      simp [setKey, lookupKey, Ne.symm hne]
    · simp only [setKey, if_neg hk]
      by_cases h32 : k3 = k2 <;> simp [lookupKey, h32, ih]

theorem keys_setKey {α : Type} (d : SDict α) (k : String) (v : α) :
    dictKeys (setKey d k v) =
      if k ∈ dictKeys d then dictKeys d else dictKeys d ++ [k] := by
  induction d with
  | nil => simp [setKey, dictKeys]
  | cons p rest ih =>
    obtain ⟨k2, w⟩ := p
    by_cases hk : k2 = k
    · subst hk
      simp [setKey, dictKeys_cons]
    · have hne : ¬k = k2 := fun h => hk h.symm
      by_cases hmem : k ∈ dictKeys rest
      · simp [setKey, hk, dictKeys_cons, ih, hmem, hne]
      · simp [setKey, hk, dictKeys_cons, ih, hmem, hne]

theorem setKey_nodup {α : Type} {d : SDict α} (k : String) (v : α)
    (hnd : (dictKeys d).Nodup) : (dictKeys (setKey d k v)).Nodup := by
  rw [keys_setKey]
  by_cases hmem : k ∈ dictKeys d
  · simp [hmem, hnd]
  · simp [hmem, List.nodup_append, hnd]

theorem setKey_of_absent {α : Type} {d : SDict α} {k : String} (v : α)
    (h : lookupKey d k = none) : setKey d k v = d ++ [(k, v)] := by
  induction d with
  | nil => simp [setKey]
  | cons p rest ih =>
    obtain ⟨k2, w⟩ := p
    by_cases hk : k2 = k
    · simp [lookupKey, hk] at h
    · simp [lookupKey, hk] at h
      simp [setKey, hk, ih h]

/-!
Decimal rendering of layer/expert indices. Keys in the source state dict embed
the layer index via Python f-string interpolation, i.e. decimal notation; on
the Lean side this is `Nat.repr`. The lemmas below establish the two facts the
key-disjointness arguments need: `Nat.repr` is injective, and every character
it produces is a decimal digit (hence never `'.'` or `'d'`).
-/

/-- Reference decimal digit list of a natural number (most significant first);
proved equal to the character data of `Nat.repr`. -/
def decRepr (n : Nat) : List Char :=
  if _h : n < 10 then [Nat.digitChar n]
  else decRepr (n / 10) ++ [Nat.digitChar (n % 10)]
decreasing_by
  exact Nat.div_lt_self (by omega) (by omega)

theorem decRepr_ne_nil (n : Nat) : decRepr n ≠ [] := by
  rw [decRepr]
  by_cases h : n < 10 <;> simp [h]

theorem digitChar_isDigit : ∀ k : Fin 10, (Nat.digitChar k.val).isDigit = true := by
  decide

theorem digitChar_val : ∀ k : Fin 10, (Nat.digitChar k.val).toNat - '0'.toNat = k.val := by
  decide

theorem decRepr_all_digit (n : Nat) : ∀ c ∈ decRepr n, c.isDigit = true := by
  induction n using Nat.strong_induction_on with
  | _ n ih =>
    rw [decRepr]
    by_cases h : n < 10
    · simp only [dif_pos h, List.mem_singleton]
      rintro c rfl
      exact digitChar_isDigit ⟨n, h⟩
    · simp only [dif_neg h, List.mem_append, List.mem_singleton]
      rintro c (hc | rfl)
      · exact ih (n / 10) (Nat.div_lt_self (by omega) (by omega)) c hc
      · exact digitChar_isDigit ⟨n % 10, Nat.mod_lt _ (by omega)⟩

/-- The numeric value of a digit string, with the exact fold used by
`String.toNat?`. -/
def digitsVal (cs : List Char) : Nat :=
  cs.foldl (fun n c => n * 10 + (c.toNat - '0'.toNat)) 0

theorem digitsVal_append_singleton (cs : List Char) (c : Char) :
    digitsVal (cs ++ [c]) = digitsVal cs * 10 + (c.toNat - '0'.toNat) := by
  simp [digitsVal, List.foldl_append]

theorem digitsVal_decRepr (n : Nat) : digitsVal (decRepr n) = n := by
  induction n using Nat.strong_induction_on with
  | _ n ih =>
    rw [decRepr]
    by_cases h : n < 10
    · rw [dif_pos h]
      have := digitChar_val ⟨n, h⟩
      simp [digitsVal] at this ⊢
      exact this
    · rw [dif_neg h, digitsVal_append_singleton,
        ih (n / 10) (Nat.div_lt_self (by omega) (by omega))]
      have h2 : (Nat.digitChar (n % 10)).toNat - '0'.toNat = n % 10 :=
        digitChar_val ⟨n % 10, Nat.mod_lt _ (by omega)⟩
      rw [h2]
      omega

theorem toDigitsCore_eq_decRepr :
    ∀ fuel n : Nat, n < fuel → ∀ ds : List Char,
      Nat.toDigitsCore 10 fuel n ds = decRepr n ++ ds := by
  intro fuel
  induction fuel with
  | zero => intro n h; omega
  | succ fuel ih =>
    intro n h ds
    by_cases h10 : n / 10 = 0
    · have hn : n < 10 := by omega
      simp [Nat.toDigitsCore, h10, decRepr, hn, Nat.mod_eq_of_lt hn]
    · have hlt : n / 10 < fuel := by
        have h1 : n / 10 < n := Nat.div_lt_self (by omega) (by omega)
        omega
      have hn : ¬n < 10 := by omega
      simp only [Nat.toDigitsCore, h10, if_false]
      rw [ih (n / 10) hlt]
      conv_rhs => rw [decRepr]
      rw [dif_neg hn, List.append_assoc]
      rfl

theorem repr_data (n : Nat) : (Nat.repr n).data = decRepr n := by
  show (Nat.toDigitsCore 10 (n + 1) n []).asString.data = decRepr n
  rw [toDigitsCore_eq_decRepr (n + 1) n (Nat.lt_succ_self n) [], List.append_nil]
  rfl

theorem repr_all_digit (n : Nat) : ∀ c ∈ (Nat.repr n).data, c.isDigit = true := by
  rw [repr_data]
  exact decRepr_all_digit n

theorem repr_inj {m n : Nat} (h : Nat.repr m = Nat.repr n) : m = n := by
  have hd : decRepr m = decRepr n := by
    rw [← repr_data, ← repr_data, h]
  calc m = digitsVal (decRepr m) := (digitsVal_decRepr m).symm
    _ = digitsVal (decRepr n) := by rw [hd]
    _ = n := digitsVal_decRepr n

/-- Two digit strings followed by a `'.'`-headed tail agree segment-wise. -/
theorem digit_prefix_eq :
    ∀ {a b t1 t2 : List Char}, (∀ c ∈ a, c.isDigit = true) →
      (∀ c ∈ b, c.isDigit = true) →
      a ++ '.' :: t1 = b ++ '.' :: t2 → a = b ∧ t1 = t2 := by
  intro a
  induction a with
  | nil =>
    intro b t1 t2 _ hb h
    cases b with
    | nil => simpa using h
    | cons c b2 =>
      simp only [List.nil_append, List.cons_append, List.cons.injEq] at h
      have hdig : c.isDigit = true := hb c (by simp)
      rw [← h.1] at hdig
      exact absurd hdig (by decide)
  | cons c a2 ih =>
    intro b t1 t2 ha hb h
    cases b with
    | nil =>
      simp only [List.cons_append, List.nil_append, List.cons.injEq] at h
      have hdig : c.isDigit = true := ha c (by simp)
      rw [h.1] at hdig
      exact absurd hdig (by decide)
    | cons c2 b2 =>
      simp only [List.cons_append, List.cons.injEq] at h
      obtain ⟨rfl, h2⟩ := h
      have := ih (fun x hx => ha x (List.mem_cons_of_mem _ hx))
        (fun x hx => hb x (List.mem_cons_of_mem _ hx)) h2
      exact ⟨by rw [this.1], this.2⟩

/-!
The two key families of `HFDeepSeekImporter._modify_source_state`
(deepseek.py lines 206-209). Python renders the layer index with f-string
interpolation, i.e. decimal notation, which is `Nat.repr` here.
-/

/-- HF source key `model.layers.{i}.post_attention_layernorm.weight`. -/
def postAttnKey (i : Nat) : String :=
  "model.layers." ++ Nat.repr i ++ ".post_attention_layernorm.weight"

/-- The key the disambiguation pass re-inserts for dense layers:
`model.layers.{i}.dense-post_attention_layernorm.weight`. -/
def densePostAttnKey (i : Nat) : String :=
  "model.layers." ++ Nat.repr i ++ ".dense-post_attention_layernorm.weight"

theorem postAttnKey_inj {i j : Nat} (h : postAttnKey i = postAttnKey j) : i = j := by
  have hd := congrArg String.data h
  simp only [postAttnKey, String.data_append, List.append_assoc] at hd
  have hc := List.append_cancel_left hd
  have he := digit_prefix_eq (repr_all_digit i) (repr_all_digit j) hc
  exact repr_inj (String.ext he.1)

theorem densePostAttnKey_inj {i j : Nat}
    (h : densePostAttnKey i = densePostAttnKey j) : i = j := by
  have hd := congrArg String.data h
  simp only [densePostAttnKey, String.data_append, List.append_assoc] at hd
  have hc := List.append_cancel_left hd
  have he := digit_prefix_eq (repr_all_digit i) (repr_all_digit j) hc
  exact repr_inj (String.ext he.1)

theorem postAttnKey_ne_dense (i j : Nat) : postAttnKey i ≠ densePostAttnKey j := by
  intro h
  have hd := congrArg String.data h
  simp only [postAttnKey, densePostAttnKey, String.data_append, List.append_assoc] at hd
  have hc := List.append_cancel_left hd
  have he := digit_prefix_eq (repr_all_digit i) (repr_all_digit j) hc
  exact absurd he.2 (by decide)

theorem dense_ne_postAttnKey (i j : Nat) : densePostAttnKey i ≠ postAttnKey j :=
  fun h => postAttnKey_ne_dense j i h.symm

/-!
`HFDeepSeekImporter._modify_source_state` (deepseek.py lines 195-212):

```
for layer_i, use_moe in enumerate(self.config.moe_layer_freq):
    if use_moe == 0:
        weight = state_dict.pop(f"model.layers.{layer_i}.post_attention_layernorm.weight")
        state_dict[f"model.layers.{layer_i}.dense-post_attention_layernorm.weight"] = weight
```

`none` models the `KeyError` raised by `dict.pop` escaping the loop.
-/

/-- One disambiguation step for dense layer `i`: pop the original key and
re-insert its tensor under the `dense-` qualified key. -/
def modifyStep {α : Type} (d : SDict α) (i : Nat) : Option (SDict α) :=
  match popKey d (postAttnKey i) with
  | none => none
  | some (w, d2) => some (setKey d2 (densePostAttnKey i) w)

/-- The enumerate loop of `_modify_source_state`, starting at layer `i`. -/
def modifyGo {α : Type} : List Nat → Nat → SDict α → Option (SDict α)
  | [], _, d => some d
  | t :: rest, i, d =>
    if t = 0 then
      match modifyStep d i with
      | none => none
      | some d2 => modifyGo rest (i + 1) d2
    else modifyGo rest (i + 1) d

/-- The pass `_modify_source_state`: the disambiguation pass over the state dict,
driven by the per-layer classification `freq` (`moe_layer_freq`). -/
def modify_source_state {α : Type} (freq : List Nat) (d : SDict α) : Option (SDict α) :=
  modifyGo freq 0 d

/-- Main loop invariant: starting at layer `s` with every dense-tagged original
key present, the loop succeeds, keeps keys unique, leaves all uninvolved keys
untouched, removes each dense-tagged original key and binds the `dense-`
qualified key to the original tensor. -/
theorem modifyGo_spec {α : Type} :
    ∀ (freq : List Nat) (s : Nat) (d : SDict α),
      (dictKeys d).Nodup →
      (∀ p (hp : p < freq.length), freq.get ⟨p, hp⟩ = 0 →
        (lookupKey d (postAttnKey (s + p))).isSome = true) →
      ∃ d2, modifyGo freq s d = some d2 ∧
        (dictKeys d2).Nodup ∧
        (∀ k, (∀ p (hp : p < freq.length), freq.get ⟨p, hp⟩ = 0 →
            k ≠ postAttnKey (s + p) ∧ k ≠ densePostAttnKey (s + p)) →
          lookupKey d2 k = lookupKey d k) ∧
        (∀ p (hp : p < freq.length), freq.get ⟨p, hp⟩ = 0 →
          lookupKey d2 (postAttnKey (s + p)) = none ∧
          lookupKey d2 (densePostAttnKey (s + p)) = lookupKey d (postAttnKey (s + p))) := by
  intro freq
  induction freq with
  | nil =>
    intro s d hnd _
    exact ⟨d, rfl, hnd, fun k _ => rfl, fun p hp => absurd hp (by simp)⟩
  | cons t rest ih =>
    intro s d hnd hpre
    by_cases ht : t = 0
    · have h0 : (lookupKey d (postAttnKey s)).isSome = true := by
        have := hpre 0 (by simp) (by simpa using ht)
        simpa using this
      obtain ⟨w, d1, hpop⟩ := popKey_isSome h0
      have hnd1 : (dictKeys d1).Nodup := (popKey_keys_sublist hpop).nodup hnd
      have hndd : (dictKeys (setKey d1 (densePostAttnKey s) w)).Nodup :=
        setKey_nodup _ _ hnd1
      have hlook : ∀ x : String, x ≠ postAttnKey s → x ≠ densePostAttnKey s →
          lookupKey (setKey d1 (densePostAttnKey s) w) x = lookupKey d x := by
        intro x hx1 hx2
        rw [setKey_lookup_ne _ hx2, popKey_lookup_ne hpop hx1]
      have hpre2 : ∀ p (hp : p < rest.length), rest.get ⟨p, hp⟩ = 0 →
          (lookupKey (setKey d1 (densePostAttnKey s) w)
            (postAttnKey (s + 1 + p))).isSome = true := by
        intro p hp hz
        rw [hlook _ (fun hc => by have := postAttnKey_inj hc; omega)
          (postAttnKey_ne_dense _ _)]
        have := hpre (p + 1) (by simp only [List.length_cons]; omega)
          (by simpa using hz)
        rwa [show s + (p + 1) = s + 1 + p by omega] at this
      obtain ⟨d2, hgo, hnd2, hframe, hdense⟩ := ih (s + 1) _ hndd hpre2
      refine ⟨d2, ?_, hnd2, ?_, ?_⟩
      · simp [modifyGo, ht, modifyStep, hpop, hgo]
      · intro k hk
        have hk0 := hk 0 (by simp) (by simpa using ht)
        rw [Nat.add_zero] at hk0
        have hkrest : ∀ p (hp : p < rest.length), rest.get ⟨p, hp⟩ = 0 →
            k ≠ postAttnKey (s + 1 + p) ∧ k ≠ densePostAttnKey (s + 1 + p) := by
          intro p hp hz
          have := hk (p + 1) (by simp only [List.length_cons]; omega)
            (by simpa using hz)
          rwa [show s + (p + 1) = s + 1 + p by omega] at this
        rw [hframe k hkrest, hlook k hk0.1 hk0.2]
      · intro p hp hz
        cases p with
        | zero =>
          rw [Nat.add_zero]
          constructor
          · have hne : ∀ q (hq : q < rest.length), rest.get ⟨q, hq⟩ = 0 →
                postAttnKey s ≠ postAttnKey (s + 1 + q) ∧
                postAttnKey s ≠ densePostAttnKey (s + 1 + q) := by
              intro q _ _
              exact ⟨fun hc => by have := postAttnKey_inj hc; omega,
                postAttnKey_ne_dense _ _⟩
            rw [hframe _ hne, setKey_lookup_ne _ (postAttnKey_ne_dense s s),
              popKey_lookup_self hnd hpop]
          · have hne : ∀ q (hq : q < rest.length), rest.get ⟨q, hq⟩ = 0 →
                densePostAttnKey s ≠ postAttnKey (s + 1 + q) ∧
                densePostAttnKey s ≠ densePostAttnKey (s + 1 + q) := by
              intro q _ _
              exact ⟨dense_ne_postAttnKey _ _,
                fun hc => by have := densePostAttnKey_inj hc; omega⟩
            rw [hframe _ hne, setKey_lookup_self, popKey_lookup hpop]
        | succ p =>
          have hp2 : p < rest.length := by
            simp only [List.length_cons] at hp; omega
          have hz2 : rest.get ⟨p, hp2⟩ = 0 := by simpa using hz
          have hd2 := hdense p hp2 hz2
          rw [show s + (p + 1) = s + 1 + p by omega]
          refine ⟨hd2.1, ?_⟩
          rw [hd2.2, hlook _ (fun hc => by have := postAttnKey_inj hc; omega)
            (postAttnKey_ne_dense _ _)]
    · have hpre2 : ∀ p (hp : p < rest.length), rest.get ⟨p, hp⟩ = 0 →
          (lookupKey d (postAttnKey (s + 1 + p))).isSome = true := by
        intro p hp hz
        have := hpre (p + 1) (by simp only [List.length_cons]; omega)
          (by simpa using hz)
        rwa [show s + (p + 1) = s + 1 + p by omega] at this
      obtain ⟨d2, hgo, hnd2, hframe, hdense⟩ := ih (s + 1) d hnd hpre2
      refine ⟨d2, ?_, hnd2, ?_, ?_⟩
      · simp [modifyGo, ht, hgo]
      · intro k hk
        refine hframe k ?_
        intro p hp hz
        have := hk (p + 1) (by simp only [List.length_cons]; omega)
          (by simpa using hz)
        rwa [show s + (p + 1) = s + 1 + p by omega] at this
      · intro p hp hz
        cases p with
        | zero => exact absurd (by simpa using hz) ht
        | succ p =>
          have hp2 : p < rest.length := by
            simp only [List.length_cons] at hp; omega
          have := hdense p hp2 (by simpa using hz)
          rwa [show s + 1 + p = s + (p + 1) by omega] at this

/-- Value-preservation invariant: when every dense-tagged original key is
present and no `dense-` qualified key is present yet, the loop permutes the
container's tensor values (it only rewrites keys). -/
theorem modifyGo_vals {α : Type} :
    ∀ (freq : List Nat) (s : Nat) (d : SDict α),
      (∀ p (hp : p < freq.length), freq.get ⟨p, hp⟩ = 0 →
        (lookupKey d (postAttnKey (s + p))).isSome = true) →
      (∀ p (hp : p < freq.length), freq.get ⟨p, hp⟩ = 0 →
        lookupKey d (densePostAttnKey (s + p)) = none) →
      ∃ d2, modifyGo freq s d = some d2 ∧ (dictVals d2).Perm (dictVals d) := by
  intro freq
  induction freq with
  | nil => intro s d _ _; exact ⟨d, rfl, List.Perm.refl _⟩
  | cons t rest ih =>
    intro s d hpre hfresh
    by_cases ht : t = 0
    · have h0 : (lookupKey d (postAttnKey s)).isSome = true := by
        have := hpre 0 (by simp) (by simpa using ht)
        simpa using this
      obtain ⟨w, d1, hpop⟩ := popKey_isSome h0
      have hfr0 : lookupKey d (densePostAttnKey s) = none := by
        have := hfresh 0 (by simp) (by simpa using ht)
        simpa using this
      have hd1fresh : lookupKey d1 (densePostAttnKey s) = none := by
        rw [popKey_lookup_ne hpop (dense_ne_postAttnKey s s), hfr0]
      have hset : setKey d1 (densePostAttnKey s) w = d1 ++ [(densePostAttnKey s, w)] :=
        setKey_of_absent w hd1fresh
      have hlook : ∀ x : String, x ≠ postAttnKey s → x ≠ densePostAttnKey s →
          lookupKey (setKey d1 (densePostAttnKey s) w) x = lookupKey d x := by
        intro x hx1 hx2
        rw [setKey_lookup_ne _ hx2, popKey_lookup_ne hpop hx1]
      have hpre2 : ∀ p (hp : p < rest.length), rest.get ⟨p, hp⟩ = 0 →
          (lookupKey (setKey d1 (densePostAttnKey s) w)
            (postAttnKey (s + 1 + p))).isSome = true := by
        intro p hp hz
        rw [hlook _ (fun hc => by have := postAttnKey_inj hc; omega)
          (postAttnKey_ne_dense _ _)]
        have := hpre (p + 1) (by simp only [List.length_cons]; omega)
          (by simpa using hz)
        rwa [show s + (p + 1) = s + 1 + p by omega] at this
      have hfresh2 : ∀ p (hp : p < rest.length), rest.get ⟨p, hp⟩ = 0 →
          lookupKey (setKey d1 (densePostAttnKey s) w)
            (densePostAttnKey (s + 1 + p)) = none := by
        intro p hp hz
        rw [hlook _ (dense_ne_postAttnKey _ _)
          (fun hc => by have := densePostAttnKey_inj hc; omega)]
        have := hfresh (p + 1) (by simp only [List.length_cons]; omega)
          (by simpa using hz)
        rwa [show s + (p + 1) = s + 1 + p by omega] at this
      obtain ⟨d2, hgo, hperm⟩ := ih (s + 1) _ hpre2 hfresh2
      refine ⟨d2, by simp [modifyGo, ht, modifyStep, hpop, hgo], ?_⟩
      have hvals : dictVals (setKey d1 (densePostAttnKey s) w) = dictVals d1 ++ [w] := by
        rw [hset]; simp [dictVals]
      have h1 : (dictVals (setKey d1 (densePostAttnKey s) w)).Perm (dictVals d) := by
        rw [hvals]
        exact (List.perm_append_singleton w (dictVals d1)).trans
          (popKey_vals_perm hpop).symm
      exact hperm.trans h1
    · have hpre2 : ∀ p (hp : p < rest.length), rest.get ⟨p, hp⟩ = 0 →
          (lookupKey d (postAttnKey (s + 1 + p))).isSome = true := by
        intro p hp hz
        have := hpre (p + 1) (by simp only [List.length_cons]; omega)
          (by simpa using hz)
        rwa [show s + (p + 1) = s + 1 + p by omega] at this
      have hfresh2 : ∀ p (hp : p < rest.length), rest.get ⟨p, hp⟩ = 0 →
          lookupKey d (densePostAttnKey (s + 1 + p)) = none := by
        intro p hp hz
        have := hfresh (p + 1) (by simp only [List.length_cons]; omega)
          (by simpa using hz)
        rwa [show s + (p + 1) = s + 1 + p by omega] at this
      obtain ⟨d2, hgo, hperm⟩ := ih (s + 1) d hpre2 hfresh2
      exact ⟨d2, by simp [modifyGo, ht, hgo], hperm⟩

/-- Failure lemma: if every dense-tagged original key is absent and at least
one layer is dense-tagged, the loop raises `KeyError` (returns `none`). -/
theorem modifyGo_fails {α : Type} :
    ∀ (freq : List Nat) (s : Nat) (d : SDict α),
      (∀ p (hp : p < freq.length), freq.get ⟨p, hp⟩ = 0 →
        lookupKey d (postAttnKey (s + p)) = none) →
      (∃ p, ∃ hp : p < freq.length, freq.get ⟨p, hp⟩ = 0) →
      modifyGo freq s d = none := by
  intro freq
  induction freq with
  | nil =>
    intro s d _ hex
    obtain ⟨p, hp, _⟩ := hex
    simp at hp
  | cons t rest ih =>
    intro s d habs hex
    by_cases ht : t = 0
    · have h0 : lookupKey d (postAttnKey s) = none := by
        have := habs 0 (by simp) (by simpa using ht)
        simpa using this
      simp [modifyGo, ht, modifyStep, popKey_eq_none h0]
    · have hex2 : ∃ p, ∃ hp : p < rest.length, rest.get ⟨p, hp⟩ = 0 := by
        obtain ⟨p, hp, hz⟩ := hex
        cases p with
        | zero => exact absurd (by simpa using hz) ht
        | succ p =>
          refine ⟨p, by simp only [List.length_cons] at hp; omega, ?_⟩
          simpa using hz
      have habs2 : ∀ p (hp : p < rest.length), rest.get ⟨p, hp⟩ = 0 →
          lookupKey d (postAttnKey (s + 1 + p)) = none := by
        intro p hp hz
        have := habs (p + 1) (by simp only [List.length_cons]; omega)
          (by simpa using hz)
        rwa [show s + (p + 1) = s + 1 + p by omega] at this
      simp [modifyGo, ht, ih (s + 1) d habs2 hex2]

/-- C1: For every layer index tagged 0 (dense) in `moe_layer_freq`, the
disambiguation pass `_modify_source_state` removes
`model.layers.{i}.post_attention_layernorm.weight` from the source state dict
and inserts `model.layers.{i}.dense-post_attention_layernorm.weight` bound to
the same tensor value; every layer whose tag is nonzero (MoE) keeps its
original post_attention_layernorm key unchanged. Preconditions: every
dense-tagged original key is present, and keys are unique as in a Python dict. -/
theorem modify_source_state_renames_dense_layers {α : Type}
    (freq : List Nat) (d : SDict α)
    (hnd : (dictKeys d).Nodup)
    (hpre : ∀ p (hp : p < freq.length), freq.get ⟨p, hp⟩ = 0 →
      (lookupKey d (postAttnKey p)).isSome = true) :
    ∃ d2, modify_source_state freq d = some d2 ∧
      (∀ p (hp : p < freq.length), freq.get ⟨p, hp⟩ = 0 →
        lookupKey d2 (postAttnKey p) = none ∧
        lookupKey d2 (densePostAttnKey p) = lookupKey d (postAttnKey p)) ∧
      (∀ p (hp : p < freq.length), freq.get ⟨p, hp⟩ ≠ 0 →
        lookupKey d2 (postAttnKey p) = lookupKey d (postAttnKey p)) := by
  obtain ⟨d2, hgo, _, hframe, hdense⟩ := modifyGo_spec freq 0 d hnd
    (by intro p hp hz; simpa using hpre p hp hz)
  refine ⟨d2, hgo, ?_, ?_⟩
  · intro p hp hz
    simpa using hdense p hp hz
  · intro p hp hz
    refine hframe _ ?_
    intro q hq hzq
    constructor
    · intro hc
      have hpq : p = q := by have := postAttnKey_inj hc; omega
      subst hpq
      exact hz hzq
    · exact postAttnKey_ne_dense _ _

theorem modify_source_state_renames_dense_layers_witness :
    ((dictKeys [(postAttnKey 0, (0 : Int))]).Nodup ∧
      (∀ p (hp : p < ([0] : List Nat).length), ([0] : List Nat).get ⟨p, hp⟩ = 0 →
        (lookupKey [(postAttnKey 0, (0 : Int))] (postAttnKey p)).isSome = true)) ∧
    (∃ d2, modify_source_state [0] [(postAttnKey 0, (0 : Int))] = some d2 ∧
      (∀ p (hp : p < ([0] : List Nat).length), ([0] : List Nat).get ⟨p, hp⟩ = 0 →
        lookupKey d2 (postAttnKey p) = none ∧
        lookupKey d2 (densePostAttnKey p) =
          lookupKey [(postAttnKey 0, (0 : Int))] (postAttnKey p)) ∧
      (∀ p (hp : p < ([0] : List Nat).length), ([0] : List Nat).get ⟨p, hp⟩ ≠ 0 →
        lookupKey d2 (postAttnKey p) =
          lookupKey [(postAttnKey 0, (0 : Int))] (postAttnKey p))) :=
  ⟨⟨by decide, by decide⟩,
    modify_source_state_renames_dense_layers [0] _ (by decide) (by decide)⟩

/-- C2 counterexample: The claim quantifies over every per-layer
classification, but for an all-MoE classification (no 0 tag, e.g. `[1]`) the
pass touches nothing, so a second run returns normally instead of raising
KeyError. -/
theorem modify_source_state_twice_counterexample :
    ∃ d1 : SDict Int, modify_source_state [1] ([] : SDict Int) = some d1 ∧
      modify_source_state [1] d1 ≠ none :=
  ⟨[], by decide, by decide⟩

/-- C2 amended: For every per-layer classification containing at least
one dense (0) tag, running the disambiguation pass a second time on the
container it has already disambiguated raises KeyError on the original
`model.layers.{i}.post_attention_layernorm.weight` key (the second run
returns `none`). -/
theorem modify_source_state_twice_raises {α : Type}
    (freq : List Nat) (d d2 : SDict α)
    (hnd : (dictKeys d).Nodup)
    (hpre : ∀ p (hp : p < freq.length), freq.get ⟨p, hp⟩ = 0 →
      (lookupKey d (postAttnKey p)).isSome = true)
    (hdense : ∃ p, ∃ hp : p < freq.length, freq.get ⟨p, hp⟩ = 0)
    (hrun : modify_source_state freq d = some d2) :
    modify_source_state freq d2 = none := by
  obtain ⟨d2x, hgo, _, _, hdensex⟩ := modifyGo_spec freq 0 d hnd
    (by intro p hp hz; simpa using hpre p hp hz)
  have hd2 : d2x = d2 := by
    have hrun2 : modifyGo freq 0 d = some d2 := hrun
    rw [hrun2] at hgo
    exact (Option.some.inj hgo).symm
  subst hd2
  apply modifyGo_fails freq 0 d2x _ hdense
  intro p hp hz
  simpa using (hdensex p hp hz).1

theorem modify_source_state_twice_raises_witness :
    modify_source_state [0] [(postAttnKey 0, (0 : Int))]
        = some [(densePostAttnKey 0, (0 : Int))] ∧
      modify_source_state [0] [(densePostAttnKey 0, (0 : Int))] = none :=
  ⟨by decide,
    modify_source_state_twice_raises [0] [(postAttnKey 0, (0 : Int))]
      [(densePostAttnKey 0, (0 : Int))] (by decide) (by decide)
      ⟨0, by decide, by decide⟩ (by decide)⟩

/-- C6: The disambiguation pass changes only the textual keys of the
affected entries: the multiset of tensor values (hence the entry count) is
unchanged, and every key of the container other than a dense-tagged original
`model.layers.{i}.post_attention_layernorm.weight` maps to the same tensor
after the pass as before. Preconditions: unique keys, dense-tagged originals
present, and no `dense-` qualified key present yet (the container has not been
disambiguated before). -/
theorem modify_source_state_preserves_values {α : Type}
    (freq : List Nat) (d : SDict α)
    (hnd : (dictKeys d).Nodup)
    (hpre : ∀ p (hp : p < freq.length), freq.get ⟨p, hp⟩ = 0 →
      (lookupKey d (postAttnKey p)).isSome = true)
    (hfresh : ∀ p (hp : p < freq.length), freq.get ⟨p, hp⟩ = 0 →
      lookupKey d (densePostAttnKey p) = none) :
    ∃ d2, modify_source_state freq d = some d2 ∧
      (dictVals d2 : Multiset α) = (dictVals d : Multiset α) ∧
      d2.length = d.length ∧
      (∀ k, (lookupKey d k).isSome = true →
        (∀ p (hp : p < freq.length), freq.get ⟨p, hp⟩ = 0 → k ≠ postAttnKey p) →
        lookupKey d2 k = lookupKey d k) := by
  obtain ⟨d2, hgo, hperm⟩ := modifyGo_vals freq 0 d
    (by intro p hp hz; simpa using hpre p hp hz)
    (by intro p hp hz; simpa using hfresh p hp hz)
  obtain ⟨d2x, hgox, _, hframe, _⟩ := modifyGo_spec freq 0 d hnd
    (by intro p hp hz; simpa using hpre p hp hz)
  have hd2 : d2x = d2 := by
    have hgo2 : modifyGo freq 0 d = some d2 := hgo
    rw [hgo2] at hgox
    exact (Option.some.inj hgox).symm
  subst hd2
  refine ⟨d2x, hgo, Multiset.coe_eq_coe.mpr hperm, ?_, ?_⟩
  · have := hperm.length_eq
    simpa [dictVals] using this
  · intro k hks hknot
    refine hframe k ?_
    intro p hp hz
    refine ⟨by simpa using hknot p hp hz, ?_⟩
    intro hc
    have h0 : lookupKey d k = none := by
      rw [hc]
      simpa using hfresh p hp hz
    rw [h0] at hks
    simp at hks

theorem modify_source_state_preserves_values_witness :
    ((dictKeys [(postAttnKey 0, (0 : Int)), ("model.norm.weight", 1)]).Nodup ∧
      (∀ p (hp : p < ([0] : List Nat).length), ([0] : List Nat).get ⟨p, hp⟩ = 0 →
        (lookupKey [(postAttnKey 0, (0 : Int)), ("model.norm.weight", 1)]
          (postAttnKey p)).isSome = true) ∧
      (∀ p (hp : p < ([0] : List Nat).length), ([0] : List Nat).get ⟨p, hp⟩ = 0 →
        lookupKey [(postAttnKey 0, (0 : Int)), ("model.norm.weight", 1)]
          (densePostAttnKey p) = none)) ∧
    (∃ d2, modify_source_state [0]
        [(postAttnKey 0, (0 : Int)), ("model.norm.weight", 1)] = some d2 ∧
      (dictVals d2 : Multiset Int) =
        (dictVals [(postAttnKey 0, (0 : Int)), ("model.norm.weight", 1)] : Multiset Int) ∧
      d2.length = [(postAttnKey 0, (0 : Int)), ("model.norm.weight", 1)].length ∧
      (∀ k, (lookupKey [(postAttnKey 0, (0 : Int)), ("model.norm.weight", 1)] k).isSome
          = true →
        (∀ p (hp : p < ([0] : List Nat).length), ([0] : List Nat).get ⟨p, hp⟩ = 0 →
          k ≠ postAttnKey p) →
        lookupKey d2 k =
          lookupKey [(postAttnKey 0, (0 : Int)), ("model.norm.weight", 1)] k)) :=
  ⟨⟨by decide, by decide, by decide⟩,
    modify_source_state_preserves_values [0] _ (by decide) (by decide) (by decide)⟩

/-!
Key Pattern Matcher and substitution. The engine that expands wildcard
patterns (`nemo.lightning.io.state`) is not part of src/, so it is modelled
from the spec (§4.1): a pattern is compiled once into literal/wildcard
segment tokens; matching requires equal segment count, literal segments match
exactly, wildcard segments parse as non-negative integers collected left to
right; substitution fills wildcard positions with the binding's integers in
order.
-/

theorem repr_ne_empty (n : Nat) : Nat.repr n ≠ "" := by
  intro h
  have hd := congrArg String.data h
  rw [repr_data] at hd
  exact decRepr_ne_nil n hd

theorem isNat_repr (n : Nat) : (Nat.repr n).isNat = true := by
  have h1 : (Nat.repr n).isEmpty = false := by
    rw [Bool.eq_false_iff]
    intro hx
    exact repr_ne_empty n ((String.isEmpty_iff _).mp hx)
  have h2 : (Nat.repr n).all (fun c => c.isDigit) = true := by
    rw [String.all_eq, List.all_eq_true]
    intro c hc
    exact repr_all_digit n c hc
  simp [String.isNat, h1, h2]

/-- Round trip: `String.toNat?` inverts decimal rendering: the substitution/matching
round trip depends on this. -/
theorem toNat?_repr (n : Nat) : (Nat.repr n).toNat? = some n := by
  rw [String.toNat?, if_pos (isNat_repr n), String.foldl_eq, repr_data]
  have := digitsVal_decRepr n
  simp only [digitsVal] at this
  rw [this]

theorem repr_no_dot (n : Nat) : '.' ∉ (Nat.repr n).data := by
  intro h
  have := repr_all_digit n '.' h
  exact absurd this (by decide)

/-- A compiled pattern segment (spec §4.1): literal or positional wildcard. -/
inductive Seg where
  | lit : String → Seg
  | wild : Seg
deriving DecidableEq

/-- Split a character list on `'.'` (dotted-name segmentation, spec §3). -/
def splitDots : List Char → List (List Char)
  | [] => [[]]
  | c :: cs =>
    if c = '.' then [] :: splitDots cs
    else
      match splitDots cs with
      | [] => [[c]]
      | s :: ss => (c :: s) :: ss

/-- The dot-separated segments of a parameter name. -/
def splitName (s : String) : List String :=
  (splitDots s.data).map (fun cs => ⟨cs⟩)

/-- Modelled from the spec: compile a pattern string into its
literal/wildcard segment tokens (`nemo.lightning.io.state` is not under
src/; spec §4.1). -/
def compileSegs (s : String) : List Seg :=
  (splitName s).map (fun t => if t = "*" then Seg.wild else Seg.lit t)

/-- Modelled from the spec: match compiled pattern segments against a name's
segments; wildcard integers are collected left to right into the binding. -/
def matchSegs : List Seg → List String → Option (List Nat)
  | [], [] => some []
  | Seg.lit s :: ps, t :: ts => if s = t then matchSegs ps ts else none
  | Seg.wild :: ps, t :: ts =>
    match t.toNat?, matchSegs ps ts with
    | some n, some bs => some (n :: bs)
    | _, _ => none
  | _, _ => none

/-- Modelled from the spec: `match(pattern, name)` of the Key Pattern Matcher. -/
def matchName (p : String) (name : String) : Option (List Nat) :=
  matchSegs (compileSegs p) (splitName name)

/-- Modelled from the spec: substitution over the pattern's characters; each
`'*'` consumes the next binding integer, rendered in decimal. -/
def substChars : List Char → List Nat → List Char
  | [], _ => []
  | c :: cs, bs =>
    if c = '*' then
      match bs with
      | [] => c :: substChars cs []
      | b :: bs2 => (Nat.repr b).data ++ substChars cs bs2
    else c :: substChars cs bs

/-- Modelled from the spec: `substitute(pattern, binding)` fills wildcard
positions of a pattern with the binding's integers, in order. -/
def substitute (p : String) (bs : List Nat) : String :=
  ⟨substChars p.data bs⟩

/-- Number of wildcard segments of a compiled pattern (its arity). -/
def segArity : List Seg → Nat
  | [] => 0
  | Seg.wild :: ps => segArity ps + 1
  | Seg.lit _ :: ps => segArity ps

/-- Segment-level substitution of a binding into a compiled pattern. -/
def substSegs : List Seg → List Nat → List String
  | [], _ => []
  | Seg.lit s :: ps, bs => s :: substSegs ps bs
  | Seg.wild :: ps, [] => "*" :: substSegs ps []
  | Seg.wild :: ps, b :: bs => Nat.repr b :: substSegs ps bs

theorem splitDots_ne_nil (cs : List Char) : splitDots cs ≠ [] := by
  induction cs with
  | nil => simp [splitDots]
  | cons c cs ih =>
    by_cases h : c = '.'
    · simp [splitDots, h]
    · simp only [splitDots, if_neg h]
      cases hs : splitDots cs with
      | nil => simp
      | cons s ss => simp

theorem splitDots_no_dot {cs : List Char} (h : '.' ∉ cs) : splitDots cs = [cs] := by
  induction cs with
  | nil => rfl
  | cons c cs ih =>
    simp only [List.mem_cons, not_or] at h
    have hc : c ≠ '.' := fun hx => h.1 hx.symm
    simp [splitDots, hc, ih h.2]

theorem splitDots_append {a : List Char} (h : '.' ∉ a) (r : List Char) :
    splitDots (a ++ '.' :: r) = a :: splitDots r := by
  induction a with
  | nil => simp [splitDots]
  | cons c a2 ih =>
    simp only [List.mem_cons, not_or] at h
    have hc : c ≠ '.' := fun hx => h.1 hx.symm
    simp [splitDots, hc, ih h.2]

theorem substChars_append_no_star {a : List Char} (h : '*' ∉ a) :
    ∀ (cs : List Char) (bs : List Nat),
      substChars (a ++ cs) bs = a ++ substChars cs bs := by
  induction a with
  | nil => intro cs bs; rfl
  | cons c a2 ih =>
    intro cs bs
    simp only [List.mem_cons, not_or] at h
    have hc : c ≠ '*' := fun hx => h.1 hx.symm
    simp [substChars, hc, ih h.2]

theorem substChars_id {a : List Char} (h : '*' ∉ a) (bs : List Nat) :
    substChars a bs = a := by
  induction a with
  | nil => rfl
  | cons c a2 ih =>
    simp only [List.mem_cons, not_or] at h
    have hc : c ≠ '*' := fun hx => h.1 hx.symm
    simp [substChars, hc, ih h.2]

theorem substChars_cons_star (cs : List Char) (b : Nat) (bs : List Nat) :
    substChars ('*' :: cs) (b :: bs) = (Nat.repr b).data ++ substChars cs bs := by
  simp [substChars]

theorem matchSegs_lit_inv {s : String} {ps : List Seg} {ts : List String}
    {bs : List Nat} (h : matchSegs (Seg.lit s :: ps) ts = some bs) :
    ∃ ts2, ts = s :: ts2 ∧ matchSegs ps ts2 = some bs := by
  cases ts with
  | nil => exact absurd h (by simp [matchSegs])
  | cons t ts2 =>
    by_cases hs : s = t
    · subst hs
      exact ⟨ts2, rfl, by simpa [matchSegs] using h⟩
    · rw [matchSegs, if_neg hs] at h
      exact absurd h (by simp)

theorem matchSegs_wild_inv {ps : List Seg} {ts : List String} {bs : List Nat}
    (h : matchSegs (Seg.wild :: ps) ts = some bs) :
    ∃ t ts2, ts = t :: ts2 := by
  cases ts with
  | nil => exact absurd h (by simp [matchSegs])
  | cons t ts2 => exact ⟨t, ts2, rfl⟩

theorem matchSegs_wild_rest {ps : List Seg} {ts : List String} {bs : List Nat}
    (h : matchSegs (Seg.wild :: ps) ts = some bs) :
    ∃ t ts2 bs2, ts = t :: ts2 ∧ matchSegs ps ts2 = some bs2 := by
  cases ts with
  | nil => exact absurd h (by simp [matchSegs])
  | cons t ts2 =>
    cases hn : t.toNat? with
    | none =>
      rw [matchSegs, hn] at h
      exact absurd h (by simp)
    | some n =>
      cases hm : matchSegs ps ts2 with
      | none =>
        rw [matchSegs, hn, hm] at h
        exact absurd h (by simp)
      | some bs2 => exact ⟨t, ts2, bs2, rfl, hm⟩

/-- Shape inversion for the five-segment patterns of the post-attention
layernorm mapping entries. -/
theorem matchSegs_five_shape {s1 s2 s4 s5 : String} {ts : List String}
    {bs : List Nat}
    (h : matchSegs [Seg.lit s1, Seg.lit s2, Seg.wild, Seg.lit s4, Seg.lit s5] ts
      = some bs) :
    ∃ t rest, ts = s1 :: s2 :: t :: s4 :: rest := by
  obtain ⟨ts1, rfl, h1⟩ := matchSegs_lit_inv h
  obtain ⟨ts2, rfl, h2⟩ := matchSegs_lit_inv h1
  obtain ⟨t, ts3, bs3, rfl, h3⟩ := matchSegs_wild_rest h2
  obtain ⟨ts4, rfl, _⟩ := matchSegs_lit_inv h3
  exact ⟨t, ts4, rfl⟩

/-- The substitution contract: matching a pattern against the name obtained by
substituting a binding recovers exactly that binding. -/
theorem matchSegs_substSegs :
    ∀ (ps : List Seg) (bs : List Nat), segArity ps = bs.length →
      matchSegs ps (substSegs ps bs) = some bs := by
  intro ps
  induction ps with
  | nil =>
    intro bs h
    simp only [segArity] at h
    rw [eq_comm, List.length_eq_zero] at h
    subst h
    rfl
  | cons p ps ih =>
    intro bs h
    cases p with
    | lit s =>
      simp only [segArity] at h
      simp [substSegs, matchSegs, ih bs h]
    | wild =>
      cases bs with
      | nil =>
        simp only [segArity, List.length_nil] at h
        omega
      | cons b bs2 =>
        simp only [segArity, List.length_cons] at h
        have h2 : segArity ps = bs2.length := by omega
        simp [substSegs, matchSegs, toNat?_repr, ih bs2 h2]

/-- C5: After the disambiguation pass, the two mapping patterns
`model.layers.*.dense-post_attention_layernorm.weight` and
`model.layers.*.post_attention_layernorm.weight` (deepseek.py lines 228-229)
match disjoint sets of concrete source keys (the wildcard matches exactly one
dotted segment and `dense-post_attention_layernorm` is a distinct literal
segment), and for each layer index their two target patterns produce distinct
target keys, so every post-attention layernorm tensor is consumed by exactly
one mapping entry and no target key is produced by both entries. -/
theorem post_attention_patterns_disjoint :
    (∀ name : String,
      ¬((matchName "model.layers.*.dense-post_attention_layernorm.weight"
          name).isSome = true ∧
        (matchName "model.layers.*.post_attention_layernorm.weight"
          name).isSome = true)) ∧
    (∀ L : Nat,
      substitute "decoder.layers.*.mlp.linear_fc1.layer_norm_weight" [L] ≠
        substitute "decoder.layers.*.pre_mlp_layernorm.weight" [L]) := by
  constructor
  · intro name hand
    obtain ⟨h1, h2⟩ := hand
    obtain ⟨bs1, hbs1⟩ := Option.isSome_iff_exists.mp h1
    obtain ⟨bs2, hbs2⟩ := Option.isSome_iff_exists.mp h2
    have hcomp1 : compileSegs "model.layers.*.dense-post_attention_layernorm.weight"
        = [Seg.lit "model", Seg.lit "layers", Seg.wild,
           Seg.lit "dense-post_attention_layernorm", Seg.lit "weight"] := rfl
    have hcomp2 : compileSegs "model.layers.*.post_attention_layernorm.weight"
        = [Seg.lit "model", Seg.lit "layers", Seg.wild,
           Seg.lit "post_attention_layernorm", Seg.lit "weight"] := rfl
    rw [matchName, hcomp1] at hbs1
    rw [matchName, hcomp2] at hbs2
    obtain ⟨t, rest, he1⟩ := matchSegs_five_shape hbs1
    obtain ⟨t2, rest2, he2⟩ := matchSegs_five_shape hbs2
    rw [he1] at he2
    simp only [List.cons.injEq] at he2
    exact absurd he2.2.2.2.1 (by decide)
  · intro L h
    have e1 : (substitute "decoder.layers.*.mlp.linear_fc1.layer_norm_weight" [L]).data
        = "decoder.layers.".data ++
          ((Nat.repr L).data ++ ".mlp.linear_fc1.layer_norm_weight".data) := by
      show substChars
          ("decoder.layers.".data ++ '*' :: ".mlp.linear_fc1.layer_norm_weight".data)
          [L] = _
      rw [substChars_append_no_star (by decide), substChars_cons_star,
        substChars_id (by decide)]
    have e2 : (substitute "decoder.layers.*.pre_mlp_layernorm.weight" [L]).data
        = "decoder.layers.".data ++
          ((Nat.repr L).data ++ ".pre_mlp_layernorm.weight".data) := by
      show substChars
          ("decoder.layers.".data ++ '*' :: ".pre_mlp_layernorm.weight".data)
          [L] = _
      rw [substChars_append_no_star (by decide), substChars_cons_star,
        substChars_id (by decide)]
    have hd := congrArg String.data h
    rw [e1, e2] at hd
    have hc := List.append_cancel_left (List.append_cancel_left hd)
    exact absurd hc (by decide)

theorem post_attention_patterns_disjoint_witness :
    ¬((matchName "model.layers.*.dense-post_attention_layernorm.weight"
        "model.layers.0.post_attention_layernorm.weight").isSome = true ∧
      (matchName "model.layers.*.post_attention_layernorm.weight"
        "model.layers.0.post_attention_layernorm.weight").isSome = true) :=
  post_attention_patterns_disjoint.1 "model.layers.0.post_attention_layernorm.weight"

/-- C7: Wildcard integers captured from a matched source key are
substituted unchanged, in left-to-right order, into the target pattern:
in general matching a pattern against the key obtained by substituting a
binding recovers exactly that binding, and concretely the per-expert source
key `model.layers.{L}.mlp.experts.{E}.down_proj.weight` matches with binding
`[L, E]` and produces target key
`decoder.layers.{L}.mlp.experts.linear_fc2.weight{E}`, while single-wildcard
entries carry the same layer index from source to target name. -/
theorem wildcard_substitution_contract :
    (∀ (ps : List Seg) (bs : List Nat), segArity ps = bs.length →
      matchSegs ps (substSegs ps bs) = some bs) ∧
    (∀ L E : Nat,
      matchName "model.layers.*.mlp.experts.*.down_proj.weight"
          ("model.layers." ++ Nat.repr L ++ ".mlp.experts." ++ Nat.repr E ++
            ".down_proj.weight") = some [L, E] ∧
      substitute "decoder.layers.*.mlp.experts.linear_fc2.weight*" [L, E]
        = "decoder.layers." ++ Nat.repr L ++ ".mlp.experts.linear_fc2.weight"
            ++ Nat.repr E ∧
      matchName "model.layers.*.input_layernorm.weight"
          ("model.layers." ++ Nat.repr L ++ ".input_layernorm.weight")
        = some [L] ∧
      substitute "decoder.layers.*.input_layernorm.weight" [L]
        = "decoder.layers." ++ Nat.repr L ++ ".input_layernorm.weight") := by
  refine ⟨matchSegs_substSegs, ?_⟩
  intro L E
  refine ⟨?_, ?_, ?_, ?_⟩
  · have hdata : ("model.layers." ++ Nat.repr L ++ ".mlp.experts." ++ Nat.repr E ++
        ".down_proj.weight").data
        = "model".data ++ '.' :: ("layers".data ++ '.' ::
          ((Nat.repr L).data ++ '.' :: ("mlp".data ++ '.' ::
            ("experts".data ++ '.' :: ((Nat.repr E).data ++ '.' ::
              ("down_proj".data ++ '.' :: "weight".data)))))) := by
      simp only [String.data_append, List.append_assoc]
      rfl
    have hsplit : splitName ("model.layers." ++ Nat.repr L ++ ".mlp.experts." ++
        Nat.repr E ++ ".down_proj.weight")
        = ["model", "layers", Nat.repr L, "mlp", "experts", Nat.repr E,
           "down_proj", "weight"] := by
      rw [splitName, hdata, splitDots_append (by decide),
        splitDots_append (by decide), splitDots_append (repr_no_dot L),
        splitDots_append (by decide), splitDots_append (by decide),
        splitDots_append (repr_no_dot E), splitDots_append (by decide),
        splitDots_no_dot (by decide)]
      rfl
    have hcomp : compileSegs "model.layers.*.mlp.experts.*.down_proj.weight"
        = [Seg.lit "model", Seg.lit "layers", Seg.wild, Seg.lit "mlp",
           Seg.lit "experts", Seg.wild, Seg.lit "down_proj", Seg.lit "weight"] := rfl
    rw [matchName, hcomp, hsplit]
    simp [matchSegs, toNat?_repr]
  · have e1 : substitute "decoder.layers.*.mlp.experts.linear_fc2.weight*" [L, E]
        = ⟨"decoder.layers.".data ++ ((Nat.repr L).data ++
            (".mlp.experts.linear_fc2.weight".data ++
              ((Nat.repr E).data ++ substChars [] [])))⟩ := by
      show (⟨substChars ("decoder.layers.".data ++ '*' ::
          (".mlp.experts.linear_fc2.weight".data ++ '*' :: [])) [L, E]⟩ : String) = _
      rw [substChars_append_no_star (by decide), substChars_cons_star,
        substChars_append_no_star (by decide), substChars_cons_star]
    rw [e1]
    apply String.ext
    simp only [String.data_append, List.append_assoc]
    simp [substChars]
  · have hdata : ("model.layers." ++ Nat.repr L ++ ".input_layernorm.weight").data
        = "model".data ++ '.' :: ("layers".data ++ '.' ::
          ((Nat.repr L).data ++ '.' :: ("input_layernorm".data ++ '.' ::
            "weight".data))) := by
      simp only [String.data_append, List.append_assoc]
      rfl
    have hsplit : splitName ("model.layers." ++ Nat.repr L ++
        ".input_layernorm.weight")
        = ["model", "layers", Nat.repr L, "input_layernorm", "weight"] := by
      rw [splitName, hdata, splitDots_append (by decide),
        splitDots_append (by decide), splitDots_append (repr_no_dot L),
        splitDots_append (by decide), splitDots_no_dot (by decide)]
      rfl
    have hcomp : compileSegs "model.layers.*.input_layernorm.weight"
        = [Seg.lit "model", Seg.lit "layers", Seg.wild,
           Seg.lit "input_layernorm", Seg.lit "weight"] := rfl
    rw [matchName, hcomp, hsplit]
    simp [matchSegs, toNat?_repr]
  · have e1 : substitute "decoder.layers.*.input_layernorm.weight" [L]
        = ⟨"decoder.layers.".data ++ ((Nat.repr L).data ++
            ".input_layernorm.weight".data)⟩ := by
      show (⟨substChars ("decoder.layers.".data ++ '*' ::
          ".input_layernorm.weight".data) [L]⟩ : String) = _
      rw [substChars_append_no_star (by decide), substChars_cons_star,
        substChars_id (by decide)]
    rw [e1]
    apply String.ext
    simp only [String.data_append, List.append_assoc]

theorem wildcard_substitution_contract_witness :
    segArity [Seg.lit "layers", Seg.wild] = [(5 : Nat)].length ∧
    matchSegs [Seg.lit "layers", Seg.wild]
        (substSegs [Seg.lit "layers", Seg.wild] [5]) = some [5] :=
  ⟨by decide, wildcard_substitution_contract.1 [Seg.lit "layers", Seg.wild] [5]
    (by decide)⟩

/-!
The fc1 merge transforms of `HFDeepSeekImporter.convert_state`
(deepseek.py lines 250-272).
-/

/-- Modelled from the spec: `TransformFns.merge_fc1` / `merge_concat`
(`nemo.lightning.io.state` is not under src/): the gate and up tensors are
concatenated along axis 0, gate first, here on one-dimensional tensors. -/
def merge_fc1 (gate up : List Int) : List Int := gate ++ up

/-- The declared `source_key` tuples of the three fc1 merge transforms, in
the exact declared order of the source. -/
def fc1_transform_sources : List (List String) :=
  [["model.layers.*.mlp.gate_proj.weight",
    "model.layers.*.mlp.up_proj.weight"],
   ["model.layers.*.mlp.experts.*.gate_proj.weight",
    "model.layers.*.mlp.experts.*.up_proj.weight"],
   ["model.layers.*.mlp.shared_experts.gate_proj.weight",
    "model.layers.*.mlp.shared_experts.up_proj.weight"]]

/-- C3: Every fc1 merge transform declares its sources gate_proj before
up_proj, and the merged tensor preserves that order: for (d,)-shaped inputs
the result has shape (2d,), its first d elements equal the gate input, its
last d equal the up input, and reversing the argument order changes the
result whenever the inputs differ. -/
theorem merge_fc1_order (d : Nat) (a b : List Int)
    (ha : a.length = d) (hb : b.length = d) :
    (merge_fc1 a b).length = 2 * d ∧
    (merge_fc1 a b).take d = a ∧
    (merge_fc1 a b).drop d = b ∧
    (a ≠ b → merge_fc1 a b ≠ merge_fc1 b a) ∧
    (∀ p ∈ fc1_transform_sources, p.length = 2 ∧
      List.isSuffixOf "gate_proj.weight".data (p.headD "").data = true ∧
      List.isSuffixOf "up_proj.weight".data ((p.getD 1 "").data) = true) := by
  refine ⟨?_, ?_, ?_, ?_, by decide⟩
  · simp only [merge_fc1, List.length_append, ha, hb]
    omega
  · exact List.take_left' ha
  · exact List.drop_left' ha
  · intro hne hc
    apply hne
    have h1 : (merge_fc1 a b).take d = a := List.take_left' ha
    have h2 : (merge_fc1 b a).take d = b := List.take_left' hb
    rw [hc, h2] at h1
    exact h1.symm

theorem merge_fc1_order_witness :
    (([(0 : Int)].length = 1) ∧ ([(1 : Int)].length = 1)) ∧
    ((merge_fc1 [0] [1]).length = 2 * 1 ∧
      (merge_fc1 [0] [1]).take 1 = [0] ∧
      (merge_fc1 [0] [1]).drop 1 = [1] ∧
      (([(0 : Int)] : List Int) ≠ [1] → merge_fc1 [0] [1] ≠ merge_fc1 [1] [0]) ∧
      (∀ p ∈ fc1_transform_sources, p.length = 2 ∧
        List.isSuffixOf "gate_proj.weight".data (p.headD "").data = true ∧
        List.isSuffixOf "up_proj.weight".data ((p.getD 1 "").data) = true)) :=
  ⟨⟨by decide, by decide⟩, merge_fc1_order 1 [0] [1] (by decide) (by decide)⟩

/-!
The mapping table of `HFDeepSeekImporter.convert_state`
(deepseek.py lines 216-248).
-/

/-- The importer config as the capability check sees it: Python
`hasattr(self.config, "moe_router_enable_expert_bias")` then truthiness;
`none` models an absent attribute. -/
structure ImporterConfig where
  moe_router_enable_expert_bias : Option Bool

/-- The unconditional entries of the `mapping` dict, in source order. -/
def base_mapping : List (String × String) :=
  [("model.embed_tokens.weight", "embedding.word_embeddings.weight"),
   ("model.layers.*.input_layernorm.weight",
    "decoder.layers.*.input_layernorm.weight"),
   ("model.layers.*.self_attn.o_proj.weight",
    "decoder.layers.*.self_attention.linear_proj.weight"),
   ("model.layers.*.self_attn.q_a_proj.weight",
    "decoder.layers.*.self_attention.linear_q_down_proj.weight"),
   ("model.layers.*.self_attn.q_b_proj.weight",
    "decoder.layers.*.self_attention.linear_q_up_proj.weight"),
   ("model.layers.*.self_attn.kv_a_proj_with_mqa.weight",
    "decoder.layers.*.self_attention.linear_kv_down_proj.weight"),
   ("model.layers.*.self_attn.kv_b_proj.weight",
    "decoder.layers.*.self_attention.linear_kv_up_proj.weight"),
   ("model.layers.*.self_attn.q_a_layernorm.weight",
    "decoder.layers.*.self_attention.q_layernorm.weight"),
   ("model.layers.*.self_attn.kv_a_layernorm.weight",
    "decoder.layers.*.self_attention.kv_layernorm.weight"),
   ("model.layers.*.dense-post_attention_layernorm.weight",
    "decoder.layers.*.mlp.linear_fc1.layer_norm_weight"),
   ("model.layers.*.post_attention_layernorm.weight",
    "decoder.layers.*.pre_mlp_layernorm.weight"),
   ("model.layers.*.mlp.down_proj.weight",
    "decoder.layers.*.mlp.linear_fc2.weight"),
   ("model.layers.*.mlp.gate.weight", "decoder.layers.*.mlp.router.weight"),
   ("model.layers.*.mlp.experts.*.down_proj.weight",
    "decoder.layers.*.mlp.experts.linear_fc2.weight*"),
   ("model.layers.*.mlp.shared_experts.down_proj.weight",
    "decoder.layers.*.mlp.shared_experts.linear_fc2.weight"),
   ("model.norm.weight", "decoder.final_layernorm.weight"),
   ("lm_head.weight", "output_layer.weight")]

/-- The conditional expert-bias entry (deepseek.py lines 243-248). -/
def expert_bias_entry : String × String :=
  ("model.layers.*.mlp.gate.e_score_correction_bias",
   "decoder.layers.*.mlp.router.expert_bias")

/-- The mapping built by `convert_state`: the expert-bias entry is added iff
`hasattr(self.config, "moe_router_enable_expert_bias") and
self.config.moe_router_enable_expert_bias`. -/
def convert_state_mapping (cfg : ImporterConfig) : List (String × String) :=
  match cfg.moe_router_enable_expert_bias with
  | some true => base_mapping ++ [expert_bias_entry]
  | _ => base_mapping

/-- C4: The mapping contains the
`model.layers.*.mlp.gate.e_score_correction_bias` →
`decoder.layers.*.mlp.router.expert_bias` entry iff the config has the
attribute `moe_router_enable_expert_bias` and it is true; an absent attribute
behaves exactly like a false one. -/
theorem expert_bias_mapping_iff :
    (∀ cfg : ImporterConfig,
      expert_bias_entry ∈ convert_state_mapping cfg ↔
        cfg.moe_router_enable_expert_bias = some true) ∧
    convert_state_mapping ⟨none⟩ = convert_state_mapping ⟨some false⟩ := by
  have hnot : expert_bias_entry ∉ base_mapping := by decide
  constructor
  · intro cfg
    cases hattr : cfg.moe_router_enable_expert_bias with
    | none => simp [convert_state_mapping, hattr, hnot]
    | some b =>
      cases b with
      | false => simp [convert_state_mapping, hattr, hnot]
      | true => simp [convert_state_mapping, hattr]
  · rfl

/-!
Config construction (deepseek.py lines 102-107, 116-127, 136-155, 288-318).
-/

/-- Position lookup in `[a] * f + [b] * m` (Python list repetition clamps a
negative count to an empty list, as Nat subtraction does on the caller side). -/
theorem getElem?_replicate_append (a b f m i : Nat) :
    (List.replicate f a ++ List.replicate m b)[i]? =
      if i < f then some a else if i < f + m then some b else none := by
  by_cases h1 : i < f
  · rw [List.getElem?_append_left (by simpa using h1), List.getElem?_replicate,
      if_pos h1, if_pos h1]
  · rw [List.getElem?_append_right (by simpa using h1), List.getElem?_replicate,
      List.length_replicate, if_neg h1]
    by_cases h2 : i < f + m
    · rw [if_pos (by omega), if_pos h2]
    · rw [if_neg (by omega), if_neg h2]

/-- The importer property `HFDeepSeekImporter.config` builds
`moe_layer_freq=[0] * first_k_dense_replace + [1] * n_moe_layers` with
`n_moe_layers = num_hidden_layers - first_k_dense_replace`. -/
def config_moe_layer_freq (num_hidden_layers first_k_dense_replace : Nat) :
    List Nat :=
  List.replicate first_k_dense_replace 0 ++
    List.replicate (num_hidden_layers - first_k_dense_replace) 1

/-- C8: The per-layer classification built by the importer's config
property assigns exactly one tag per layer: its length equals
`num_hidden_layers`, tag 0 appears exactly at the leading
`first_k_dense_replace` indices, and every other position holds tag 1. -/
theorem config_moe_layer_freq_tags (num_hidden_layers first_k_dense_replace : Nat)
    (h : first_k_dense_replace ≤ num_hidden_layers) :
    (config_moe_layer_freq num_hidden_layers first_k_dense_replace).length
        = num_hidden_layers ∧
    (∀ i, (config_moe_layer_freq num_hidden_layers first_k_dense_replace)[i]?
        = some 0 ↔ i < first_k_dense_replace) ∧
    (∀ i, first_k_dense_replace ≤ i → i < num_hidden_layers →
      (config_moe_layer_freq num_hidden_layers first_k_dense_replace)[i]?
        = some 1) := by
  refine ⟨?_, ?_, ?_⟩
  · simp only [config_moe_layer_freq, List.length_append, List.length_replicate]
    omega
  · intro i
    rw [config_moe_layer_freq, getElem?_replicate_append]
    by_cases h1 : i < first_k_dense_replace
    · simp [h1]
    · by_cases h2 : i < first_k_dense_replace + (num_hidden_layers - first_k_dense_replace) <;>
        simp [h1, h2]
  · intro i hi1 hi2
    rw [config_moe_layer_freq, getElem?_replicate_append,
      if_neg (by omega), if_pos (by omega)]

theorem config_moe_layer_freq_tags_witness :
    (1 ≤ 3) ∧
    ((config_moe_layer_freq 3 1).length = 3 ∧
      (∀ i, (config_moe_layer_freq 3 1)[i]? = some 0 ↔ i < 1) ∧
      (∀ i, 1 ≤ i → i < 3 → (config_moe_layer_freq 3 1)[i]? = some 1)) :=
  ⟨by decide, config_moe_layer_freq_tags 3 1 (by decide)⟩

/-- The hook `DeepSeekConfig.__post_init__` (deepseek.py lines 102-107):
```
if self.moe_router_topk_limited_devices is not None:
    self.moe_router_topk_limited_devices = min(
        self.moe_router_topk_limited_devices, self.expert_model_parallel_size)
```
`none` models a `None` attribute value. -/
def post_init_topk_limited_devices (moe_router_topk_limited_devices : Option Int)
    (expert_model_parallel_size : Int) : Option Int :=
  match moe_router_topk_limited_devices with
  | some v => some (min v expert_model_parallel_size)
  | none => none

/-- C9: After `__post_init__`, a non-None `moe_router_topk_limited_devices`
is clamped to `min` of its initial value and `expert_model_parallel_size`
(hence is at most `expert_model_parallel_size`), and a None value stays None. -/
theorem post_init_clamps_topk_limited_devices (v : Option Int) (e : Int) :
    (v = none → post_init_topk_limited_devices v e = none) ∧
    (∀ x, v = some x →
      post_init_topk_limited_devices v e = some (min x e)) ∧
    (∀ w, post_init_topk_limited_devices v e = some w → w ≤ e) := by
  refine ⟨?_, ?_, ?_⟩
  · intro hv
    subst hv
    rfl
  · intro x hv
    subst hv
    rfl
  · intro w hw
    cases v with
    | none => exact absurd hw (by simp [post_init_topk_limited_devices])
    | some x =>
      simp only [post_init_topk_limited_devices, Option.some.injEq] at hw
      rw [← hw]
      exact min_le_right x e

theorem post_init_clamps_topk_limited_devices_witness :
    post_init_topk_limited_devices (some 5) 3 = some (min 5 3) ∧
    post_init_topk_limited_devices none 3 = none ∧
    ((5 : Int) ≤ 3 → False) :=
  ⟨(post_init_clamps_topk_limited_devices (some 5) 3).2.1 5 rfl,
    (post_init_clamps_topk_limited_devices none 3).1 rfl,
    by decide⟩

/-- DeepSeekV2Config default `num_layers` (deepseek.py line 116). -/
def deepSeekV2_num_layers : Nat := 60

/-- DeepSeekV2Config default `moe_layer_freq: [0] + [1] * 59` (line 122). -/
def deepSeekV2_moe_layer_freq : List Nat := [0] ++ List.replicate 59 1

/-- DeepSeekV3Config default `num_layers` (deepseek.py line 136). -/
def deepSeekV3_num_layers : Nat := 61

/-- DeepSeekV3Config default `moe_layer_freq: [0] * 3 + [1] * 58`
(lines 142-144). -/
def deepSeekV3_moe_layer_freq : List Nat :=
  List.replicate 3 0 ++ List.replicate 58 1

/-- C10: Both default configurations classify every layer: V2's default
`moe_layer_freq` has length 60 equal to its `num_layers` with tag 0 exactly at
index 0, and V3's has length 61 equal to its `num_layers` with tag 0 exactly
at indices 0, 1, 2. -/
theorem default_moe_layer_freq_cover_layers :
    deepSeekV2_moe_layer_freq.length = deepSeekV2_num_layers ∧
    (∀ i, deepSeekV2_moe_layer_freq[i]? = some 0 ↔ i < 1) ∧
    deepSeekV3_moe_layer_freq.length = deepSeekV3_num_layers ∧
    (∀ i, deepSeekV3_moe_layer_freq[i]? = some 0 ↔ i < 3) := by
  refine ⟨by decide, ?_, by decide, ?_⟩
  · intro i
    have h : deepSeekV2_moe_layer_freq = List.replicate 1 0 ++ List.replicate 59 1 := rfl
    rw [h, getElem?_replicate_append]
    by_cases h1 : i < 1
    · simp [h1]
    · by_cases h2 : i < 1 + 59 <;> simp [h1, h2]
  · intro i
    rw [deepSeekV3_moe_layer_freq, getElem?_replicate_append]
    by_cases h1 : i < 3
    · simp [h1]
    · by_cases h2 : i < 3 + 58 <;> simp [h1, h2]
